import Mathlib

/-!
Verification development for the GM-Voice-Studio voice store and narration
pipeline.  The definitions below are shallow embeddings of the Python code in
`text_utils.py`, `voice_store.py`, `db_voice.py`, `voice_clone.py`,
`tts_service.py` and `server.py`.  Text is embedded as `List Char`; machine
integers as `Int`/`Nat`; fallible operations return `Except`/`Option`;
filesystem, object-store and database state is passed explicitly.  I/O that
the code assumes to succeed (file writes, database statements, S3 requests)
is modelled as succeeding; the one deliberately fallible I/O operation,
`os.unlink` in the audio cache eviction, is modelled by an explicit failure
predicate because the code catches and swallows its errors.
-/

/-- Python whitespace predicate restricted to ASCII, as used by `str.strip`
and the regex class `\s` in `text_utils.py`. -/
def isWs (c : Char) : Bool :=
  c == ' ' || c == '\t' || c == '\n' || c == '\r' || c == '\x0b' || c == '\x0c'

/-- Sentence-terminal punctuation of the regex `(?<=[.!?])` in
`split_for_tts`. -/
def isPunct (c : Char) : Bool :=
  c == '.' || c == '!' || c == '?'

/-- All non-whitespace characters of a text, in order.  Two texts are equal
modulo whitespace normalization exactly when `nonWs` agrees. -/
def nonWs (l : List Char) : List Char :=
  l.filter (fun c => !(isWs c))

/-- Python `str.strip()` on a character list: drop leading and trailing
whitespace. -/
def stripChars (l : List Char) : List Char :=
  ((l.dropWhile isWs).reverse.dropWhile isWs).reverse

/-- Python `str.strip()` on a `String`. -/
def stripStr (s : String) : String :=
  String.mk (stripChars s.data)

/-- Python slicing `l[:n]` with a possibly negative bound `n`. -/
def pyTake (n : Int) (l : List Char) : List Char :=
  if 0 ≤ n then l.take n.toNat else l.take (l.length - min l.length (-n).toNat)

/-- Prepend a character to the first piece of a split result (helper for the
splitting scanners). -/
def consHead (c : Char) : List (List Char) → List (List Char)
  | [] => [[c]]
  | p :: ps => (c :: p) :: ps

/-- Python `text.split "\n\n"`: split at non-overlapping occurrences of two
consecutive newline characters, scanning left to right. -/
def splitNN : List Char → List (List Char)
  | [] => [[]]
  | [c] => [[c]]
  | c :: d :: rest =>
    if c == '\n' && d == '\n' then [] :: splitNN rest
    else consHead c (splitNN (d :: rest))

/-- Whether a list starts with a whitespace character. -/
def headWs : List Char → Bool
  | [] => false
  | d :: _ => isWs d

/-- Fuelled scanner for `re.split` with pattern `(?<=[.!?])\s+`: cut after a
sentence-terminal punctuation character that is followed by whitespace, and
consume the maximal whitespace run.  Each step consumes at least one
character, so fuel `length + 1` always completes the scan. -/
def sentSplitF : Nat → List Char → List (List Char)
  | 0, _ => []
  | _ + 1, [] => [[]]
  | f + 1, c :: rest =>
    if isPunct c && headWs rest then [c] :: sentSplitF f (rest.dropWhile isWs)
    else consHead c (sentSplitF f rest)

/-- `re.split` of the sentence pattern over a whole text. -/
def sentenceSplit (t : List Char) : List (List Char) :=
  sentSplitF (t.length + 1) t

/-- The sentence-mode accumulation loop of `split_for_tts`: strip each raw
sentence, skip empty ones, coalesce while the combined length stays within
`max_chars`, hard-truncate a single over-long sentence, stop after
`MAX_CHUNKS` chunks. -/
def sentLoop (maxc : Int) : List (List Char) → List (List Char) → List Char → List (List Char)
  | [], chunks, current =>
    if current ≠ [] ∧ chunks.length < 15 then chunks ++ [current] else chunks
  | s0 :: rest, chunks, current =>
    let s := stripChars s0
    if s = [] then sentLoop maxc rest chunks current
    else if (current.length : Int) + s.length + 1 ≤ maxc ∧ chunks.length < 15 then
      sentLoop maxc rest chunks (if current = [] then s else stripChars (current ++ ' ' :: s))
    else
      let newCur := if maxc < (s.length : Int) then pyTake maxc s else s
      if current ≠ [] then
        if 15 ≤ chunks.length + 1 then chunks ++ [current]
        else sentLoop maxc rest (chunks ++ [current]) newCur
      else sentLoop maxc rest chunks newCur

/-- The paragraph-mode loop of `split_for_tts`: append each paragraph
(truncated to `MAX_TOTAL_CHARS` if over-long) until `MAX_CHUNKS` chunks. -/
def parLoop : List (List Char) → List (List Char) → List (List Char)
  | [], chunks => chunks
  | p :: rest, chunks =>
    if 15 ≤ chunks.length then chunks
    else parLoop rest (chunks ++ [if 5000 < p.length then p.take 5000 else p])

/-- Python `segment.rfind " "`: index of the last space character, `none`
when absent. -/
def rfindSpace (l : List Char) : Option Nat :=
  match l.reverse.findIdx? (fun c => c == ' ') with
  | none => none
  | some j => some (l.length - 1 - j)

/-- The cut position chosen by the fixed mode: back off to just after the
last space of the `maxcN`-character window when that space lies past half the
window, else hard-cut at the window boundary. -/
def cutAt (maxcN : Nat) (remaining : List Char) : Nat :=
  match rfindSpace (remaining.take maxcN) with
  | some i => if maxcN / 2 < i then i + 1 else maxcN
  | none => maxcN

/-- Fuelled fixed-mode loop of `split_for_tts`: greedily emit windows of at
most `maxcN` characters, backing off to the last space when it lies past half
the window.  In the source `maxcN` is the clamped `max_chars`, so each
iteration consumes at least one character and fuel `length + 1` always
completes the loop. -/
def fixedLoopF (maxcN : Nat) : Nat → List (List Char) → List Char → List (List Char)
  | 0, chunks, _ => chunks
  | _ + 1, chunks, [] => chunks
  | f + 1, chunks, c :: rs =>
    if 15 ≤ chunks.length then chunks
    else if (c :: rs).length ≤ maxcN then chunks ++ [stripChars (c :: rs)]
    else
      fixedLoopF maxcN f (chunks ++ [stripChars ((c :: rs).take (cutAt maxcN (c :: rs)))])
        (stripChars ((c :: rs).drop (cutAt maxcN (c :: rs))))

/-- The clamp `max(50, min(max_chars, 1500))` applied by the fixed mode of
`split_for_tts` and by the `/tts/narrate` handler. -/
def clampI (n : Int) : Int :=
  max 50 (min n 1500)

/-- The text actually split: stripped, then truncated to `MAX_TOTAL_CHARS`
when over-long. -/
def prepText (text0 : List Char) : List Char :=
  let t1 := stripChars text0
  if 5000 < t1.length then t1.take 5000 else t1

/-- Shallow embedding of `split_for_tts` from `text_utils.py`. -/
def split_for_tts (text0 : List Char) (chunk_by : String) (max_chars : Int) : List (List Char) :=
  let t1 := stripChars text0
  if t1 = [] then []
  else
    let t := prepText text0
    let chunks :=
      if chunk_by = "paragraph" then
        parLoop (((splitNN t).map stripChars).filter (fun p => !p.isEmpty)) []
      else if chunk_by = "fixed" then
        fixedLoopF (clampI max_chars).toNat (t.length + 1) [] t
      else
        sentLoop max_chars (sentenceSplit t) [] []
    chunks.take 15

/-!
## Voice store data model

`voice_store.py` keeps one blob file (`{voice_id}.pt`) and one metadata file
(`{voice_id}.json`) per voice, either in a local directory or in an S3 bucket
(plus a maintained `index.json` object); `db_voice.py` optionally keeps
metadata rows in a relational table keyed by `voice_id`.  Each store is
modelled by the collection of keys it holds.
-/

/-- Opaque serialized voice representation: the bytes `torch.save` produces
for the (already device-moved and reshaped) embedding.  The store never
inspects it, so it is modelled by an opaque token. -/
abbrev Blob := Nat

/-- Contents of a `{voice_id}.json` metadata file (local or S3 variant). -/
structure VoiceMeta where
  voice_id : String
  consent_scope : String
  created_at : Nat
  name : String
  faction : String
deriving DecidableEq

/-- A row of the relational `voices` table, minus its primary key. -/
structure DbRow where
  name : String
  consent_scope : String
  created_at : Nat
  owner_id : Option String
deriving DecidableEq

/-- The local filesystem backend: the `.pt` blob files and the `.json`
metadata files, each keyed by `voice_id`. -/
structure LocalState where
  ptFiles : List (String × Blob)
  metaFiles : List (String × VoiceMeta)
deriving DecidableEq

/-- The S3 backend: the `.pt` and `.json` objects keyed by `voice_id`, and
the optional `index.json` object (absent until the first save). -/
structure S3State where
  ptObjs : List (String × Blob)
  jsonObjs : List (String × VoiceMeta)
  indexObj : Option (List VoiceMeta)
deriving DecidableEq

/-- The relational backend: the `voices` table. -/
structure DbState where
  rows : List (String × DbRow)
deriving DecidableEq

/-- Backend selection, fixed at process start: `useDb` models a set
`DATABASE_URL` (`use_db()`), `useS3` models `VOICE_STORAGE_BACKEND=s3` with a
bucket (`_use_s3()`). -/
structure StoreCfg where
  useDb : Bool
  useS3 : Bool
deriving DecidableEq

/-- The whole shared storage location: all three physical stores.  A given
configuration only consults some of them. -/
structure StoreState where
  fs : LocalState
  s3 : S3State
  db : DbState
deriving DecidableEq

/-- Lookup by key in an association list (a file name in a directory, an
object key in a bucket, a primary key in a table). -/
def findVal {α : Type} (id : String) : List (String × α) → Option α
  | [] => none
  | (k, v) :: rest => if k = id then some v else findVal id rest

/-- Overwrite the value stored at a key (writing a file replaces its
content). -/
def setVal {α : Type} (id : String) (v : α) (l : List (String × α)) : List (String × α) :=
  l.map (fun e => if e.1 = id then (id, v) else e)

/-- `_local_get_metadata`: read `{voice_id}.json` if it exists. -/
def local_get_metadata (id : String) (L : LocalState) : Option VoiceMeta :=
  findVal id L.metaFiles

/-- `_local_update_metadata`: `False` when the metadata file is missing, else
rewrite it with the stripped new name (when one is given) and return
`True`. -/
def local_update_metadata (id : String) (name : Option String) (L : LocalState) :
    Bool × LocalState :=
  match findVal id L.metaFiles with
  | none => (false, L)
  | some m =>
    let m2 := match name with
      | some nm => { m with name := stripStr nm }
      | none => m
    (true, { L with metaFiles := setVal id m2 L.metaFiles })

/-- `_local_delete_voice`: unlink the `.pt` and `.json` files when present
(unlink modelled as succeeding); `True` when at least one existed. -/
def local_delete_voice (id : String) (L : LocalState) : Bool × LocalState :=
  (((findVal id L.ptFiles).isSome || (findVal id L.metaFiles).isSome),
   { ptFiles := L.ptFiles.filter (fun e => !(e.1 == id)),
     metaFiles := L.metaFiles.filter (fun e => !(e.1 == id)) })

/-- Replace the first index entry whose `voice_id` matches (the
`for ... break` loop of `_s3_update_metadata`). -/
def replaceFirstMeta (id : String) (m : VoiceMeta) : List VoiceMeta → List VoiceMeta
  | [] => []
  | e :: rest => if e.voice_id = id then m :: rest else e :: replaceFirstMeta id m rest

/-- `_s3_get_metadata`: fetch the `{voice_id}.json` object if it exists. -/
def s3_get_metadata (id : String) (S : S3State) : Option VoiceMeta :=
  findVal id S.jsonObjs

/-- `_s3_update_metadata`: `False` when the metadata object is missing, else
put the updated object, patch the first matching index entry when the index
object exists, and return `True`. -/
def s3_update_metadata (id : String) (name : Option String) (S : S3State) :
    Bool × S3State :=
  match findVal id S.jsonObjs with
  | none => (false, S)
  | some m =>
    let m2 := match name with
      | some nm => { m with name := stripStr nm }
      | none => m
    let S2 := { S with jsonObjs := setVal id m2 S.jsonObjs }
    match S2.indexObj with
    | none => (true, S2)
    | some idx => (true, { S2 with indexObj := some (replaceFirstMeta id m2 idx) })

/-- `_s3_delete_voice`: S3 `delete_object` succeeds (HTTP 204) whether or not
the key exists, so barring transport errors `ok` becomes `True` on the first
iteration and the function always returns `True`; the index entry is filtered
out when the index object exists. -/
def s3_delete_voice (id : String) (S : S3State) : Bool × S3State :=
  (true,
   { ptObjs := S.ptObjs.filter (fun e => !(e.1 == id)),
     jsonObjs := S.jsonObjs.filter (fun e => !(e.1 == id)),
     indexObj := match S.indexObj with
       | none => none
       | some idx => some (idx.filter (fun e => !(e.voice_id == id))) })

/-- The shape of a row returned by `db_get_voice` (no `owner_id`, no
`faction`). -/
structure DbGetRow where
  voice_id : String
  name : String
  consent_scope : String
  created_at : Nat
deriving DecidableEq

/-- The dict `db_get_voice` builds from a fetched row, including the
`consent_scope or "tts"` fallback. -/
def mkGetRow (id : String) (r : DbRow) : DbGetRow :=
  ⟨id, r.name, if r.consent_scope = "" then "tts" else r.consent_scope, r.created_at⟩

/-- The SQL condition `owner_id IS NULL OR owner_id = ?`. -/
def ownerMatchB (owner : String) (r : DbRow) : Bool :=
  r.owner_id.isNone || r.owner_id == some owner

/-- `db_get_voice`: select the row by primary key; when an owner filter is
supplied and the row has a different non-null owner, answer as if the row
were absent. -/
def db_get_voice (id : String) (owner : Option String) (D : DbState) : Option DbGetRow :=
  match findVal id D.rows with
  | none => none
  | some r =>
    match owner with
    | some o => if r.owner_id ≠ none ∧ r.owner_id ≠ some o then none else some (mkGetRow id r)
    | none => some (mkGetRow id r)

/-- `db_update_voice`: with `name=None` return `True` immediately (no
statement is executed); otherwise run an `UPDATE` (owner-scoped when an owner
filter is supplied) and report whether any row matched. -/
def db_update_voice (id : String) (name : Option String) (owner : Option String)
    (D : DbState) : Bool × DbState :=
  match name with
  | none => (true, D)
  | some nm =>
    let nv := stripStr nm
    match owner with
    | some o =>
      let hit := fun (e : String × DbRow) => e.1 == id && ownerMatchB o e.2
      (D.rows.any hit,
       ⟨D.rows.map (fun e => if hit e then (e.1, { e.2 with name := nv }) else e)⟩)
    | none =>
      let hit := fun (e : String × DbRow) => e.1 == id
      (D.rows.any hit,
       ⟨D.rows.map (fun e => if hit e then (e.1, { e.2 with name := nv }) else e)⟩)

/-- `db_delete_voice`: run a `DELETE` (owner-scoped when an owner filter is
supplied) and report whether any row matched. -/
def db_delete_voice (id : String) (owner : Option String) (D : DbState) : Bool × DbState :=
  match owner with
  | some o =>
    let hit := fun (e : String × DbRow) => e.1 == id && ownerMatchB o e.2
    (D.rows.any hit, ⟨D.rows.filter (fun e => !(hit e))⟩)
  | none =>
    let hit := fun (e : String × DbRow) => e.1 == id
    (D.rows.any hit, ⟨D.rows.filter (fun e => !(hit e))⟩)

/-- The externally observable result of a facade `get`: the relational
backend returns a dict without `faction`, the file backends return the
metadata file content. -/
inductive VoiceView where
  | fileMeta (m : VoiceMeta)
  | dbMeta (r : DbGetRow)
deriving DecidableEq

/-- Facade `get_metadata` from `voice_store.py`: dispatch on the
configuration chosen at process start. -/
def get_metadata (cfg : StoreCfg) (id : String) (owner : Option String)
    (st : StoreState) : Option VoiceView :=
  if cfg.useDb then (db_get_voice id owner st.db).map VoiceView.dbMeta
  else if cfg.useS3 then (s3_get_metadata id st.s3).map VoiceView.fileMeta
  else (local_get_metadata id st.fs).map VoiceView.fileMeta

/-- Facade `update_metadata` from `voice_store.py`. -/
def update_metadata (cfg : StoreCfg) (id : String) (name owner : Option String)
    (st : StoreState) : Bool × StoreState :=
  if cfg.useDb then
    let r := db_update_voice id name owner st.db
    (r.1, { st with db := r.2 })
  else if cfg.useS3 then
    let r := s3_update_metadata id name st.s3
    (r.1, { st with s3 := r.2 })
  else
    let r := local_update_metadata id name st.fs
    (r.1, { st with fs := r.2 })

/-- Facade `delete_voice` from `voice_store.py`: optional ownership
pre-check against the database, then blob/file deletion on the selected blob
backend, then row deletion when the database is in use. -/
def delete_voice (cfg : StoreCfg) (id : String) (owner : Option String)
    (st : StoreState) : Bool × StoreState :=
  if cfg.useDb ∧ owner ≠ none ∧ db_get_voice id owner st.db = none then (false, st)
  else
    let pr :=
      if cfg.useS3 then
        let r := s3_delete_voice id st.s3
        (r.1, { st with s3 := r.2 })
      else
        let r := local_delete_voice id st.fs
        (r.1, { st with fs := r.2 })
    if cfg.useDb then
      let r := db_delete_voice id owner pr.2.db
      (r.1 || pr.1, { pr.2 with db := r.2 })
    else pr

/-!
## Clone pipeline (`voice_clone.py`)

The audio decoder and the synthesis engine are external collaborators; the
pipeline is embedded as a function of the measured duration and of the
abstract engine outcome, recording the externally visible side effects (the
engine call and the persistence write) in order.
-/

/-- Error taxonomy of the clone pipeline: `ValueError` for invalid audio,
`RuntimeError` for engine failures. -/
inductive CloneErr where
  | invalidAudio (msg : String)
  | extractionFailed (msg : String)
deriving DecidableEq

/-- Side effects of `clone_voice`, in program order. -/
inductive CloneEffect where
  | engineCall
  | persistWrite
deriving DecidableEq

/-- Equality on `Except` results is decidable componentwise. -/
instance {ε α : Type} [DecidableEq ε] [DecidableEq α] : DecidableEq (Except ε α) := fun x y =>
  match x, y with
  | .error a, .error b =>
    if h : a = b then .isTrue (congrArg _ h) else .isFalse (fun hh => h (Except.error.inj hh))
  | .ok a, .ok b =>
    if h : a = b then .isTrue (congrArg _ h) else .isFalse (fun hh => h (Except.ok.inj hh))
  | .error _, .ok _ => .isFalse (fun hh => Except.noConfusion hh)
  | .ok _, .error _ => .isFalse (fun hh => Except.noConfusion hh)

/-- Rendering of a duration in the error messages: `{duration:.1f}` for the
measured value and `str()` for the float constants `3.0` and `120.0`, which
agree on one-decimal values. -/
def fmt1 (q : ℚ) : String :=
  let n : Int := ⌊q * 10 + 1 / 2⌋
  toString (n / 10) ++ "." ++ toString (n % 10)

/-- `CLONE_MIN_DURATION_SEC` with its default. -/
def CLONE_MIN_DURATION_SEC : ℚ := 3

/-- `CLONE_MAX_DURATION_SEC` with its default. -/
def CLONE_MAX_DURATION_SEC : ℚ := 120

/-- Shallow embedding of `clone_voice`: duration validation, then the engine
call, then persistence; `engine` is the abstract outcome of the external
embedding extraction, `newId` the freshly generated voice id. -/
def clone_voice (duration : ℚ) (engine : Except String Unit) (newId : String) :
    Except CloneErr String × List CloneEffect :=
  if duration < CLONE_MIN_DURATION_SEC then
    (Except.error (CloneErr.invalidAudio
      ("Audio too short: " ++ fmt1 duration ++ "s (min " ++ fmt1 CLONE_MIN_DURATION_SEC ++ "s)")), [])
  else if CLONE_MAX_DURATION_SEC < duration then
    (Except.error (CloneErr.invalidAudio
      ("Audio too long: " ++ fmt1 duration ++ "s (max " ++ fmt1 CLONE_MAX_DURATION_SEC ++ "s)")), [])
  else
    match engine with
    | Except.error m =>
      (Except.error (CloneErr.extractionFailed ("Voice extraction failed: " ++ m)),
       [CloneEffect.engineCall])
    | Except.ok _ =>
      (Except.ok newId, [CloneEffect.engineCall, CloneEffect.persistWrite])

/-!
## Audio artifact cache (`tts_service.py`)

`_audio_cache` is a process-local list of file paths; `disk` is the set of
files present.  `fails` models which `os.unlink` calls raise `OSError` (the
code swallows those errors).
-/

/-- Tracking list plus resident files of the audio artifact cache. -/
structure CacheState where
  cache : List String
  disk : List String
deriving DecidableEq

/-- The `while` loop of `_evict_old_audio`: while the cache is at or over
capacity and non-empty, pop the oldest entry and best-effort unlink its
file. -/
def evictLoop (cap : Nat) (fails : String → Bool) :
    List String → List String → List String × List String
  | [], disk => ([], disk)
  | p :: rest, disk =>
    if cap ≤ rest.length + 1 then
      evictLoop cap fails rest (if fails p then disk else disk.erase p)
    else (p :: rest, disk)

/-- `_evict_old_audio` on a cache state. -/
def evict_old_audio (cap : Nat) (fails : String → Bool) (st : CacheState) : CacheState :=
  let r := evictLoop cap fails st.cache st.disk
  ⟨r.1, r.2⟩

/-- `generate_to_file` after a successful synthesis and file write: evict,
create the temp file, append it to the tracking list, return its path. -/
def generate_to_file (cap : Nat) (fails : String → Bool) (st : CacheState)
    (newPath : String) : String × CacheState :=
  let st1 := evict_old_audio cap fails st
  (newPath, { cache := st1.cache ++ [newPath], disk := st1.disk ++ [newPath] })

/-- A sequence of one-shot synthesis calls inserting fresh artifacts. -/
def insertAll (cap : Nat) (fails : String → Bool) (ps : List String) (st : CacheState) :
    CacheState :=
  ps.foldl (fun s p => (generate_to_file cap fails s p).2) st

/-!
## Narration endpoint (`server.py`, `tts_narrate`)

The handler is embedded as a function of the parsed request body and of the
configuration (`queueOn` models a configured Celery queue, `voiceResolves`
the successful resolution of a cloned or preset voice); effects record, in
order, the job enqueue and the per-chunk synthesis calls.
-/

/-- Parsed `NarrateBody` of the `/tts/narrate` endpoint. -/
structure NarrateBody where
  text : List Char
  voice_id : Option String
  chunk_by : String
  max_chars : Int
  asyncFlag : Bool
deriving DecidableEq

/-- Externally visible side effects of the handler. -/
inductive NarrateEffect where
  | enqueue (jobId : String)
  | synth (chunk : List Char)
deriving DecidableEq

/-- Successful responses of the handler. -/
inductive NarrateResp where
  | jobQueued (jobId : String)
  | wav
deriving DecidableEq

/-- Python truthiness of the optional voice reference (`if not
body.voice_id`): both `None` and the empty string are falsy. -/
def voiceTruthy : Option String → Bool
  | none => false
  | some s => !(s == "")

/-- The `chunk_by` normalization of the handler: unknown modes fall back to
`"sentence"`. -/
def normMode (m : String) : String :=
  if m = "sentence" ∨ m = "paragraph" ∨ m = "fixed" then m else "sentence"

/-- Shallow embedding of the `tts_narrate` handler: text validation,
chunking, then either the asynchronous enqueue path or the synchronous
synthesis path.  Errors are `(HTTP status, message)` pairs. -/
def tts_narrate (queueOn : Bool) (voiceResolves : Bool) (b : NarrateBody)
    (jobId : String) : Except (Nat × String) NarrateResp × List NarrateEffect :=
  let text := stripChars b.text
  if text = [] then (Except.error (400, "No text"), [])
  else if 5000 < text.length then
    (Except.error (400, "Text exceeds 5000 characters"), [])
  else
    let mode := normMode b.chunk_by
    let chunks := split_for_tts text mode (clampI b.max_chars)
    if chunks = [] then (Except.error (400, "No chunks produced from text"), [])
    else
      let chunks2 := if 15 < chunks.length then chunks.take 15 else chunks
      if b.asyncFlag && queueOn then
        if !(voiceTruthy b.voice_id) then
          (Except.error (400, "Narrate requires a voice_id."), [])
        else (Except.ok (NarrateResp.jobQueued jobId), [NarrateEffect.enqueue jobId])
      else
        if !(voiceTruthy b.voice_id) then
          (Except.error (400, "Narrate requires a voice_id. Select a character voice."), [])
        else if !voiceResolves then (Except.error (404, "Voice not found"), [])
        else (Except.ok NarrateResp.wav, chunks2.map NarrateEffect.synth)

/-- One character list is a prefix of another. -/
def PrefixOf (a b : List Char) : Prop := ∃ t, a ++ t = b

/-- Executable prefix test, used to decide `PrefixOf` on concrete data. -/
def prefixB : List Char → List Char → Bool
  | [], _ => true
  | _ :: _, [] => false
  | a :: as, b :: bs => a == b && prefixB as bs

/-!
## Association-list lemmas for the store backends
-/

theorem findVal_eq_none {α : Type} (id : String) :
    ∀ (l : List (String × α)), findVal id l = none ↔ ∀ e ∈ l, e.1 ≠ id
  | [] => by simp [findVal]
  | (k, v) :: rest => by
    by_cases h : k = id
    · simp [findVal, h]
    · simp only [findVal, if_neg h, List.mem_cons, findVal_eq_none id rest]
      constructor
      · rintro hr e (rfl | he)
        · exact h
        · exact hr e he
      · intro hr e he
        exact hr e (Or.inr he)

theorem findVal_unique {α : Type} (id : String) :
    ∀ (l : List (String × α)), (l.map Prod.fst).Nodup →
      ∀ r, findVal id l = some r → ∀ e ∈ l, e.1 = id → e.2 = r
  | [], _, _, hfind => by simp [findVal] at hfind
  | (k, v) :: rest, hnd, r, hfind => by
    simp only [List.map_cons, List.nodup_cons] at hnd
    intro e he hkey
    by_cases h : k = id
    · simp only [findVal, if_pos h] at hfind
      cases hfind
      rcases List.mem_cons.mp he with rfl | hmem
      · rfl
      · exact absurd (h ▸ hkey ▸ List.mem_map_of_mem Prod.fst hmem) hnd.1
    · simp only [findVal, if_neg h] at hfind
      rcases List.mem_cons.mp he with rfl | hmem
      · exact absurd hkey h
      · exact findVal_unique id rest hnd.2 r hfind e hmem hkey

theorem ownerMatch_iff (o : String) (r : DbRow) :
    ownerMatchB o r = true ↔ (r.owner_id = none ∨ r.owner_id = some o) := by
  simp [ownerMatchB, Option.isNone_iff_eq_none]

theorem any_hit_iff (id o : String) :
    ∀ (l : List (String × DbRow)), (l.map Prod.fst).Nodup →
      ((l.any (fun e => e.1 == id && ownerMatchB o e.2)) = true ↔
        ∃ r, findVal id l = some r ∧ (r.owner_id = none ∨ r.owner_id = some o))
  | [], _ => by simp [findVal]
  | (k, v) :: rest, hnd => by
    simp only [List.map_cons, List.nodup_cons] at hnd
    by_cases h : k = id
    · subst h
      have hrest : rest.any (fun e => e.1 == k && ownerMatchB o e.2) = false := by
        rw [List.any_eq_false]
        intro e he
        simp only [Bool.and_eq_true, beq_iff_eq, not_and]
        intro hk _
        exact hnd.1 (hk ▸ List.mem_map_of_mem Prod.fst he)
      simp [findVal, hrest, ownerMatch_iff]
    · simp [findVal, h, any_hit_iff id o rest hnd.2]

theorem map_if_false {α : Type} (hit : α → Bool) (f : α → α) :
    ∀ (l : List α), (∀ e ∈ l, hit e = false) →
      l.map (fun e => if hit e then f e else e) = l := by
  intro l hl
  rw [List.map_congr_left (g := id) (fun e he => by simp [hl e he]), List.map_id]

theorem filter_not_false {α : Type} (hit : α → Bool) (l : List α)
    (hl : ∀ e ∈ l, hit e = false) : l.filter (fun e => !(hit e)) = l := by
  rw [List.filter_eq_self]
  intro e he
  simp [hl e he]

theorem findVal_filter {α : Type} (id : String) (p : String × α → Bool) :
    ∀ (l : List (String × α)), (∀ e ∈ l, e.1 = id → p e = false) →
      findVal id (l.filter p) = none
  | [], _ => rfl
  | (k, v) :: rest, hl => by
    have hrest := findVal_filter id p rest (fun e he => hl e (List.mem_cons_of_mem _ he))
    by_cases h : k = id
    · have : p (k, v) = false := hl (k, v) (List.mem_cons_self _ _) h
      simp [List.filter_cons, this, hrest]
    · rcases hp : p (k, v) with _ | _
      · simp [List.filter_cons, hp, hrest]
      · simp [List.filter_cons, hp, findVal, h, hrest]

/-- An owner-scoped `UPDATE` whose `WHERE` clause matches no row reports
failure and leaves the table unchanged. -/
theorem db_update_unchanged (id o nm : String) (D : DbState)
    (hf : ∀ e ∈ D.rows, (e.1 == id && ownerMatchB o e.2) = false) :
    db_update_voice id (some nm) (some o) D = (false, D) := by
  have h1 : D.rows.any (fun e => e.1 == id && ownerMatchB o e.2) = false :=
    List.any_eq_false.mpr (fun x hx => by simp [hf x hx])
  have h2 := map_if_false (fun e => e.1 == id && ownerMatchB o e.2)
    (fun e => (e.1, { e.2 with name := stripStr nm })) D.rows hf
  simp only [db_update_voice, h1, h2]

/-- An owner-scoped `DELETE` whose `WHERE` clause matches no row reports
failure and leaves the table unchanged. -/
theorem db_delete_unchanged (id o : String) (D : DbState)
    (hf : ∀ e ∈ D.rows, (e.1 == id && ownerMatchB o e.2) = false) :
    db_delete_voice id (some o) D = (false, D) := by
  have h1 : D.rows.any (fun e => e.1 == id && ownerMatchB o e.2) = false :=
    List.any_eq_false.mpr (fun x hx => by simp [hf x hx])
  have h2 := filter_not_false (fun e => e.1 == id && ownerMatchB o e.2) D.rows hf
  simp only [db_delete_voice, h1, h2]

/-- C10: with the relational metadata backend active, `update` with `name`
unset returns `True` for every `voice_id` — present or absent — and leaves
every stored record unchanged; `db_update_voice` returns before executing
any statement, so no existence check is performed. -/
theorem c10_update_noop (cfg : StoreCfg) (st : StoreState) (id : String)
    (owner : Option String) (h : cfg.useDb = true) :
    update_metadata cfg id none owner st = (true, st) := by
  simp [update_metadata, h, db_update_voice]

theorem c10_witness :
    update_metadata ⟨true, false⟩ "v" none none ⟨⟨[], []⟩, ⟨[], [], none⟩, ⟨[]⟩⟩ =
      (true, ⟨⟨[], []⟩, ⟨[], [], none⟩, ⟨[]⟩⟩) :=
  c10_update_noop ⟨true, false⟩ ⟨⟨[], []⟩, ⟨[], [], none⟩, ⟨[]⟩⟩ "v" none rfl

/-- C2 counterexample: a record owned by `"B"` is updated with owner filter
`"A"` and `name` unset, and the operation reports success (`True`) instead of
behaving as NotFound (`False`), so the claimed "succeed exactly when the
owner matches" fails for `update` with `name` unset. -/
theorem c2_counterexample :
    db_update_voice "v" none (some "A") ⟨[("v", ⟨"n", "tts", 5, some "B"⟩)]⟩ =
      (true, ⟨[("v", ⟨"n", "tts", 5, some "B"⟩)]⟩)
    ∧ (findVal "v" (⟨[("v", ⟨"n", "tts", 5, some "B"⟩)]⟩ : DbState).rows).map
        DbRow.owner_id = some (some "B")
    ∧ some "B" ≠ some "A" := by
  decide

/-- C2 amended: under the relational backend, `get`, `delete`, and `update`
with a name supplied succeed exactly when the row exists and its `owner_id`
is null or equals the supplied owner; on an owner mismatch each operation
returns exactly what it returns for an absent `voice_id` (`none` / `False`
with the state unchanged); but `update` with `name` unset returns `True`
unconditionally. -/
theorem c2_amended (D : DbState) (id o : String)
    (hnd : (D.rows.map Prod.fst).Nodup) :
    ((db_get_voice id (some o) D).isSome ↔
        ∃ r, findVal id D.rows = some r ∧ (r.owner_id = none ∨ r.owner_id = some o))
    ∧ (∀ nm, ((db_update_voice id (some nm) (some o) D).1 = true ↔
        ∃ r, findVal id D.rows = some r ∧ (r.owner_id = none ∨ r.owner_id = some o)))
    ∧ ((db_delete_voice id (some o) D).1 = true ↔
        ∃ r, findVal id D.rows = some r ∧ (r.owner_id = none ∨ r.owner_id = some o))
    ∧ (∀ r, findVal id D.rows = some r → r.owner_id ≠ none → r.owner_id ≠ some o →
        db_get_voice id (some o) D = none
        ∧ (∀ nm, db_update_voice id (some nm) (some o) D = (false, D))
        ∧ db_delete_voice id (some o) D = (false, D))
    ∧ (findVal id D.rows = none →
        db_get_voice id (some o) D = none
        ∧ (∀ nm, db_update_voice id (some nm) (some o) D = (false, D))
        ∧ db_delete_voice id (some o) D = (false, D))
    ∧ db_update_voice id none (some o) D = (true, D) := by
  have hhit_mis : ∀ r, findVal id D.rows = some r → r.owner_id ≠ none →
      r.owner_id ≠ some o → ∀ e ∈ D.rows, (e.1 == id && ownerMatchB o e.2) = false := by
    intro r hr h1 h2 e he
    by_cases hk : e.1 = id
    · have her : e.2 = r := findVal_unique id D.rows hnd r hr e he hk
      have hm : ownerMatchB o e.2 = false := by
        rcases hb : ownerMatchB o e.2 with _ | _
        · rfl
        · rcases (ownerMatch_iff o e.2).mp hb with hn | hs
          · exact absurd (her ▸ hn) h1
          · exact absurd (her ▸ hs) h2
      simp [hm]
    · simp [hk]
  have hhit_abs : findVal id D.rows = none →
      ∀ e ∈ D.rows, (e.1 == id && ownerMatchB o e.2) = false := by
    intro hn e he
    have := (findVal_eq_none id D.rows).mp hn e he
    simp [this]
  refine ⟨?_, ?_, ?_, ?_, ?_, ?_⟩
  · rcases hfv : findVal id D.rows with _ | r
    · simp [db_get_voice, hfv]
    · by_cases hcase : r.owner_id ≠ none ∧ r.owner_id ≠ some o
      · simp only [db_get_voice, hfv, if_pos hcase, Option.isSome_none,
          Bool.false_eq_true, false_iff]
        rintro ⟨r', hr', hp⟩
        cases hr'
        rcases hp with h | h
        · exact hcase.1 h
        · exact hcase.2 h
      · simp only [db_get_voice, hfv, if_neg hcase, Option.isSome_some, true_iff]
        push_neg at hcase
        refine ⟨r, rfl, ?_⟩
        by_cases hn : r.owner_id = none
        · exact Or.inl hn
        · exact Or.inr (hcase hn)
  · intro nm
    simp only [db_update_voice]
    exact any_hit_iff id o D.rows hnd
  · simp only [db_delete_voice]
    exact any_hit_iff id o D.rows hnd
  · intro r hr h1 h2
    refine ⟨?_, fun nm => db_update_unchanged id o nm D (hhit_mis r hr h1 h2),
      db_delete_unchanged id o D (hhit_mis r hr h1 h2)⟩
    simp [db_get_voice, hr, h1, h2]
  · intro hn
    refine ⟨?_, fun nm => db_update_unchanged id o nm D (hhit_abs hn),
      db_delete_unchanged id o D (hhit_abs hn)⟩
    simp [db_get_voice, hn]
  · simp [db_update_voice]

theorem c2_witness :
    (db_get_voice "v" (some "A") ⟨[("v", ⟨"n", "tts", 5, some "B"⟩)]⟩).isSome ↔
      ∃ r, findVal "v" (⟨[("v", ⟨"n", "tts", 5, some "B"⟩)]⟩ : DbState).rows = some r ∧
        (r.owner_id = none ∨ r.owner_id = some "A") :=
  (c2_amended ⟨[("v", ⟨"n", "tts", 5, some "B"⟩)]⟩ "v" "A" (by simp)).1

/-- C3: for every backend pairing, deleting a voice (with no owner filter,
or with an owner filter compatible with the stored row) and then fetching it
returns NotFound, for any owner filter on the fetch. -/
theorem c3_delete_then_get (cfg : StoreCfg) (st : StoreState) (id : String)
    (owner : Option String)
    (hnd : (st.db.rows.map Prod.fst).Nodup)
    (hown : owner = none ∨
      ∀ r, findVal id st.db.rows = some r → r.owner_id = none ∨ r.owner_id = owner) :
    ∀ owner2, get_metadata cfg id owner2 (delete_voice cfg id owner st).2 = none := by
  intro owner2
  rcases cfg with ⟨db, s3⟩
  cases db
  · have hfs : findVal id (st.fs.metaFiles.filter (fun e => !(e.1 == id))) = none :=
      findVal_filter id _ st.fs.metaFiles (fun e _ hk => by simp [hk])
    have hs3 : findVal id (st.s3.jsonObjs.filter (fun e => !(e.1 == id))) = none :=
      findVal_filter id _ st.s3.jsonObjs (fun e _ hk => by simp [hk])
    cases s3
    · simp [delete_voice, local_delete_voice, get_metadata, local_get_metadata, hfs]
    · simp [delete_voice, s3_delete_voice, get_metadata, s3_get_metadata, hs3]
  · by_cases hpre : owner ≠ none ∧ db_get_voice id owner st.db = none
    · have hdel : delete_voice ⟨true, s3⟩ id owner st = (false, st) := by
        simp [delete_voice, hpre.1, hpre.2]
      rw [hdel]
      have habs : findVal id st.db.rows = none := by
        rcases hfv : findVal id st.db.rows with _ | r
        · rfl
        · exfalso
          rcases hown with h0 | hcomp
          · exact hpre.1 h0
          · rcases ho : owner with _ | o
            · exact hpre.1 ho
            · have hc := hcomp r hfv
              rw [ho] at hc
              have hsome : db_get_voice id (some o) st.db = some (mkGetRow id r) := by
                rcases hc with hnone | heq
                · simp [db_get_voice, hfv, hnone]
                · simp [db_get_voice, hfv, heq]
              have h2 := hpre.2
              rw [ho, hsome] at h2
              exact Option.noConfusion h2
      simp [get_metadata, db_get_voice, habs]
    · rcases owner with _ | o
      · have hfinal : findVal id (st.db.rows.filter (fun e => !(e.1 == id))) = none :=
          findVal_filter id _ st.db.rows (fun e _ hk => by simp [hk])
        have hdel2 : (delete_voice ⟨true, s3⟩ id none st).2.db =
            (db_delete_voice id none st.db).2 := by
          cases s3 <;> simp [delete_voice]
        have hnone2 : findVal id (db_delete_voice id none st.db).2.rows = none := hfinal
        have hg : get_metadata ⟨true, s3⟩ id owner2 (delete_voice ⟨true, s3⟩ id none st).2 =
            (db_get_voice id owner2 ((delete_voice ⟨true, s3⟩ id none st).2.db)).map
              VoiceView.dbMeta := by
          simp [get_metadata]
        rw [hg, hdel2]
        simp [db_get_voice, hnone2]
      · have hget2 : db_get_voice id (some o) st.db ≠ none := fun h => hpre ⟨by simp, h⟩
        have hcomp := hown.resolve_left (by simp)
        have hfinal : findVal id
            (st.db.rows.filter (fun e => !(e.1 == id && ownerMatchB o e.2))) = none := by
          refine findVal_filter id _ st.db.rows (fun e he hk => ?_)
          rcases hfv : findVal id st.db.rows with _ | r
          · exact absurd hk ((findVal_eq_none id st.db.rows).mp hfv e he)
          · have her : e.2 = r := findVal_unique id st.db.rows hnd r hfv e he hk
            have hc := hcomp r hfv
            have hm : ownerMatchB o e.2 = true := (ownerMatch_iff o e.2).mpr (her ▸ hc)
            simp [hk, hm]
        have hdel2 : (delete_voice ⟨true, s3⟩ id (some o) st).2.db =
            (db_delete_voice id (some o) st.db).2 := by
          cases s3 <;> simp [delete_voice, hget2]
        have hnone2 : findVal id (db_delete_voice id (some o) st.db).2.rows = none := hfinal
        have hg : get_metadata ⟨true, s3⟩ id owner2 (delete_voice ⟨true, s3⟩ id (some o) st).2 =
            (db_get_voice id owner2 ((delete_voice ⟨true, s3⟩ id (some o) st).2.db)).map
              VoiceView.dbMeta := by
          simp [get_metadata]
        rw [hg, hdel2]
        simp [db_get_voice, hnone2]

theorem c3_witness :
    get_metadata ⟨false, false⟩ "v" none
      (delete_voice ⟨false, false⟩ "v" none ⟨⟨[], []⟩, ⟨[], [], none⟩, ⟨[]⟩⟩).2 = none :=
  c3_delete_then_get ⟨false, false⟩ ⟨⟨[], []⟩, ⟨[], [], none⟩, ⟨[]⟩⟩ "v" none
    (by simp) (Or.inl rfl) none

/-- C7: clone validation succeeds exactly when `MIN_DURATION ≤ d ≤
MAX_DURATION` (defaults 3.0s and 120.0s); when the duration is out of range
the pipeline raises `InvalidAudio` with no engine call and no persistence
write, and for a 1.0s sample the message is exactly
`Audio too short: 1.0s (min 3.0s)`. -/
theorem c7_duration_validation (d : ℚ) (engine : Except String Unit) (newId : String) :
    ((∀ m, (clone_voice d engine newId).1 ≠ Except.error (CloneErr.invalidAudio m)) ↔
      (CLONE_MIN_DURATION_SEC ≤ d ∧ d ≤ CLONE_MAX_DURATION_SEC))
    ∧ (¬(CLONE_MIN_DURATION_SEC ≤ d ∧ d ≤ CLONE_MAX_DURATION_SEC) →
        ∃ m, clone_voice d engine newId = (Except.error (CloneErr.invalidAudio m), []))
    ∧ clone_voice 1 engine newId =
        (Except.error (CloneErr.invalidAudio "Audio too short: 1.0s (min 3.0s)"), []) := by
  have hshort : d < CLONE_MIN_DURATION_SEC →
      clone_voice d engine newId = (Except.error (CloneErr.invalidAudio
        ("Audio too short: " ++ fmt1 d ++ "s (min " ++ fmt1 CLONE_MIN_DURATION_SEC ++ "s)")),
        []) := by
    intro h
    simp [clone_voice, h]
  have hlong : ¬d < CLONE_MIN_DURATION_SEC → CLONE_MAX_DURATION_SEC < d →
      clone_voice d engine newId = (Except.error (CloneErr.invalidAudio
        ("Audio too long: " ++ fmt1 d ++ "s (max " ++ fmt1 CLONE_MAX_DURATION_SEC ++ "s)")),
        []) := by
    intro h1 h2
    simp [clone_voice, h1, h2]
  have hok : ¬d < CLONE_MIN_DURATION_SEC → ¬CLONE_MAX_DURATION_SEC < d →
      ∀ m, (clone_voice d engine newId).1 ≠ Except.error (CloneErr.invalidAudio m) := by
    intro h1 h2 m
    rcases engine with me | u <;> simp [clone_voice, h1, h2]
  refine ⟨⟨?_, ?_⟩, ?_, ?_⟩
  · intro hall
    constructor
    · by_contra h
      have heq := hshort (not_le.mp h)
      exact hall _ (by rw [heq])
    · by_contra h
      have hgt := not_le.mp h
      have hnlt : ¬d < CLONE_MIN_DURATION_SEC := by
        simp only [CLONE_MIN_DURATION_SEC, CLONE_MAX_DURATION_SEC] at *
        intro hl
        linarith
      have heq := hlong hnlt hgt
      exact hall _ (by rw [heq])
  · rintro ⟨hge, hle⟩
    exact hok (not_lt.mpr hge) (not_lt.mpr hle)
  · intro hc
    rcases not_and_or.mp hc with h | h
    · exact ⟨_, hshort (not_le.mp h)⟩
    · have hgt := not_le.mp h
      have hnlt : ¬d < CLONE_MIN_DURATION_SEC := by
        simp only [CLONE_MIN_DURATION_SEC, CLONE_MAX_DURATION_SEC] at *
        intro hl
        linarith
      exact ⟨_, hlong hnlt hgt⟩
  · have h1 : (1 : ℚ) < CLONE_MIN_DURATION_SEC := by norm_num [CLONE_MIN_DURATION_SEC]
    have hf1 : fmt1 1 = "1.0" := by
      have h : ⌊(1 : ℚ) * 10 + 1 / 2⌋ = (10 : Int) := by norm_num
      simp only [fmt1, h]
      decide
    have hf3 : fmt1 CLONE_MIN_DURATION_SEC = "3.0" := by
      have h : ⌊(3 : ℚ) * 10 + 1 / 2⌋ = (30 : Int) := by norm_num
      simp only [fmt1, CLONE_MIN_DURATION_SEC, h]
      decide
    simp only [clone_voice, if_pos h1, hf1, hf3]
    decide

theorem c7_witness :
    clone_voice 1 (Except.ok ()) "v" =
      (Except.error (CloneErr.invalidAudio "Audio too short: 1.0s (min 3.0s)"), []) :=
  (c7_duration_validation 1 (Except.ok ()) "v").2.2

/-- C9 counterexample: at a concrete asynchronous narrate request with no
voice reference, the rejection message carried by the `InvalidInput` error is
`Narrate requires a voice_id.` (with a trailing period), not the claimed
`Narrate requires a voice_id`. -/
theorem c9_counterexample :
    (tts_narrate true true ⟨"Hello.".data, none, "sentence", 500, true⟩ "j").1 =
      Except.error (400, "Narrate requires a voice_id.")
    ∧ "Narrate requires a voice_id." ≠ "Narrate requires a voice_id" := by
  decide

/-- C9 amended: every asynchronous narration request that passes the text
validation stages (non-empty stripped text, within the total length cap,
chunking produced at least one chunk) and carries no voice reference is
rejected with `InvalidInput` carrying the message
`Narrate requires a voice_id.`, with no job enqueued and no synthesis
call made. -/
theorem c9_amended (queueOn voiceRes : Bool) (b : NarrateBody) (jobId : String)
    (hq : queueOn = true) (ha : b.asyncFlag = true)
    (hv : voiceTruthy b.voice_id = false)
    (ht : stripChars b.text ≠ [])
    (hlen : (stripChars b.text).length ≤ 5000)
    (hch : split_for_tts (stripChars b.text) (normMode b.chunk_by) (clampI b.max_chars) ≠ []) :
    tts_narrate queueOn voiceRes b jobId =
      (Except.error (400, "Narrate requires a voice_id."), []) := by
  simp [tts_narrate, ht, hv, ha, hq, hch, Nat.not_lt.mpr hlen]

theorem c9_witness :
    tts_narrate true true ⟨"Hello.".data, none, "sentence", 500, true⟩ "j" =
      (Except.error (400, "Narrate requires a voice_id."), []) :=
  c9_amended true true ⟨"Hello.".data, none, "sentence", 500, true⟩ "j"
    rfl rfl rfl (by decide) (by decide) (by decide)

/-- The eviction loop does nothing when the cache is below capacity. -/
theorem evictLoop_noop (cap : Nat) (fails : String → Bool) (cache disk : List String)
    (h : cache.length < cap) : evictLoop cap fails cache disk = (cache, disk) := by
  cases cache with
  | nil => rfl
  | cons p rest =>
    simp only [List.length_cons] at h
    simp only [evictLoop, if_neg (by omega : ¬cap ≤ rest.length + 1)]

/-- The eviction loop only drops entries from the front of the tracking
list, keeping the `cap - 1` newest, independently of unlink failures. -/
theorem evictLoop_cache (cap : Nat) (hcap : 1 ≤ cap) (fails : String → Bool) :
    ∀ (cache disk : List String),
      (evictLoop cap fails cache disk).1 =
        cache.drop (cache.length - min cache.length (cap - 1))
  | [], disk => by simp [evictLoop]
  | p :: rest, disk => by
    by_cases h : cap ≤ rest.length + 1
    · simp only [evictLoop, if_pos h]
      rw [evictLoop_cache cap hcap fails rest (if fails p then disk else disk.erase p)]
      have h1 : min rest.length (cap - 1) = cap - 1 := by omega
      have h2 : min (p :: rest).length (cap - 1) = cap - 1 := by
        simp only [List.length_cons]
        omega
      rw [h1, h2]
      have h3 : (p :: rest).length - (cap - 1) = (rest.length - (cap - 1)) + 1 := by
        simp only [List.length_cons]
        omega
      rw [h3, List.drop_succ_cons]
    · simp only [evictLoop, if_neg h]
      have h0 : (p :: rest).length - min (p :: rest).length (cap - 1) = 0 := by
        simp only [List.length_cons]
        omega
      rw [h0, List.drop_zero]

/-- Inserting while strictly below capacity never evicts: the tracking list
and the resident files just grow. -/
theorem insertAll_low (cap : Nat) (fails : String → Bool) :
    ∀ (ps : List String) (st : CacheState), st.cache.length + ps.length ≤ cap →
      insertAll cap fails ps st = ⟨st.cache ++ ps, st.disk ++ ps⟩
  | [], st, _ => by simp [insertAll]
  | p :: rest, st, h => by
    have hlow : st.cache.length < cap := by
      simp only [List.length_cons] at h
      omega
    have hev : evict_old_audio cap fails st = st := by
      have := evictLoop_noop cap fails st.cache st.disk hlow
      simp [evict_old_audio, this]
    have hstep : (generate_to_file cap fails st p).2 =
        (⟨st.cache ++ [p], st.disk ++ [p]⟩ : CacheState) := by
      simp [generate_to_file, hev]
    have hrec := insertAll_low cap fails rest
      (⟨st.cache ++ [p], st.disk ++ [p]⟩ : CacheState)
      (by simp only [List.length_append, List.length_cons] at h ⊢; simp; omega)
    calc insertAll cap fails (p :: rest) st
        = insertAll cap fails rest (generate_to_file cap fails st p).2 := by
          simp [insertAll]
      _ = ⟨st.cache ++ [p] ++ rest, st.disk ++ [p] ++ rest⟩ := by rw [hstep, hrec]
      _ = ⟨st.cache ++ (p :: rest), st.disk ++ (p :: rest)⟩ := by simp

/-- C8: the audio artifact cache is a strict FIFO of capacity `cap ≥ 1`:
after every insertion through `generate_to_file` the tracking list holds at
most `cap` entries, the insertion never fails and only drops entries from the
front (oldest first) with the tracking behavior independent of unlink
failures; and inserting `cap + 1` fresh artifacts into an empty cache leaves
exactly the `cap` newest tracked and resident, with the first-inserted file
deleted from disk. -/
theorem c8_fifo_cache (cap : Nat) (hcap : 1 ≤ cap) :
    (∀ fails st p,
      (generate_to_file cap fails st p).2.cache.length ≤ cap
      ∧ (generate_to_file cap fails st p).1 = p
      ∧ (generate_to_file cap fails st p).2.cache =
          st.cache.drop (st.cache.length - min st.cache.length (cap - 1)) ++ [p])
    ∧ (∀ ps : List String, ps.length = cap + 1 → ps.Nodup →
        (insertAll cap (fun _ => false) ps ⟨[], []⟩).cache = ps.drop 1
        ∧ (insertAll cap (fun _ => false) ps ⟨[], []⟩).disk = ps.drop 1
        ∧ ∀ h, ps.head? = some h → h ∉ (insertAll cap (fun _ => false) ps ⟨[], []⟩).disk) := by
  constructor
  · intro fails st p
    have hc := evictLoop_cache cap hcap fails st.cache st.disk
    refine ⟨?_, rfl, ?_⟩
    · have hlen : (generate_to_file cap fails st p).2.cache.length =
          (st.cache.drop (st.cache.length - min st.cache.length (cap - 1))).length + 1 := by
        simp [generate_to_file, evict_old_audio, hc]
      rw [hlen, List.length_drop]
      omega
    · simp [generate_to_file, evict_old_audio, hc]
  · intro ps hlen hnd
    rcases ps with _ | ⟨p0, rest⟩
    · simp at hlen
    · have hrl : rest.length = cap := by
        simp only [List.length_cons] at hlen
        omega
      have hrne : rest ≠ [] := by
        intro h
        rw [h] at hrl
        simp at hrl
        omega
      obtain ⟨init, plast, hdec⟩ : ∃ init plast, rest = init ++ [plast] :=
        ⟨rest.dropLast, rest.getLast hrne, (List.dropLast_append_getLast hrne).symm⟩
      have hinit : init.length = cap - 1 := by
        rw [hdec] at hrl
        simp only [List.length_append, List.length_cons, List.length_nil] at hrl
        omega
      have hfirst : insertAll cap (fun _ => false) (p0 :: rest) ⟨[], []⟩ =
          insertAll cap (fun _ => false) rest ⟨[p0], [p0]⟩ := by
        have hev : evict_old_audio cap (fun _ => false) ⟨[], []⟩ = ⟨[], []⟩ := by
          simp [evict_old_audio, evictLoop]
        simp [insertAll, generate_to_file, hev]
      have hmid : insertAll cap (fun _ => false) init (⟨[p0], [p0]⟩ : CacheState) =
          ⟨p0 :: init, p0 :: init⟩ := by
        have := insertAll_low cap (fun _ => false) init ⟨[p0], [p0]⟩
          (by simp [hinit]; omega)
        simpa using this
      have hsplit : insertAll cap (fun _ => false) rest (⟨[p0], [p0]⟩ : CacheState) =
          insertAll cap (fun _ => false) [plast]
            (insertAll cap (fun _ => false) init ⟨[p0], [p0]⟩) := by
        rw [hdec]
        simp [insertAll, List.foldl_append]
      have hevict : evictLoop cap (fun _ => false) (p0 :: init) (p0 :: init) =
          (init, init) := by
        have hcond : cap ≤ init.length + 1 := by omega
        have herase : (p0 :: init).erase p0 = init := by
          simp [List.erase_cons_head]
        simp only [evictLoop, if_pos hcond, Bool.false_eq_true, if_neg (by simp : ¬False),
          herase]
        exact evictLoop_noop cap (fun _ => false) init init (by omega)
      have hlast : insertAll cap (fun _ => false) [plast]
          (⟨p0 :: init, p0 :: init⟩ : CacheState) = ⟨init ++ [plast], init ++ [plast]⟩ := by
        simp [insertAll, generate_to_file, evict_old_audio, hevict]
      have hall : insertAll cap (fun _ => false) (p0 :: rest) ⟨[], []⟩ =
          ⟨init ++ [plast], init ++ [plast]⟩ := by
        rw [hfirst, hsplit, hmid, hlast]
      have hdrop : (p0 :: rest).drop 1 = init ++ [plast] := by
        simp [hdec]
      have hp0 : p0 ∉ init ++ [plast] := by
        have := hnd
        rw [List.nodup_cons] at this
        rw [← hdec]
        exact this.1
      refine ⟨by rw [hall, hdrop], by rw [hall, hdrop], ?_⟩
      intro h hh
      simp only [List.head?_cons, Option.some.injEq] at hh
      rw [hall, ← hh]
      exact hp0

theorem c8_witness :
    (generate_to_file 10 (fun _ => false) ⟨[], []⟩ "a").2.cache.length ≤ 10 :=
  ((c8_fifo_cache 10 (by decide)).1 (fun _ => false) ⟨[], []⟩ "a").1

/-- The clamp into `[50, 1500]` is idempotent. -/
theorem clampI_idem (mc : Int) : clampI (clampI mc) = clampI mc := by
  simp only [clampI, min_def, max_def]
  split_ifs <;> omega

/-- The clamp never goes below 50. -/
theorem clampI_ge (mc : Int) : 50 ≤ clampI mc :=
  le_max_left 50 (min mc 1500)

/-- C5 counterexample: in sentence mode with `max_chars = 10`, the output
differs from the output with `max_chars` clamped to 50, so the clamp is not
applied in sentence mode. -/
theorem c5_counterexample :
    split_for_tts "Hello there. Bye.".data "sentence" 10 ≠
      split_for_tts "Hello there. Bye.".data "sentence" (clampI 10) := by
  decide

/-- C5 amended: the clamp of `max_chars` into `[50, 1500]` is applied only
in fixed mode — fixed-mode output is invariant under clamping `max_chars`,
and paragraph mode ignores `max_chars` entirely — while sentence mode uses
the raw `max_chars` value. -/
theorem c5_amended :
    (∀ (text : List Char) (a b : Int),
      split_for_tts text "paragraph" a = split_for_tts text "paragraph" b)
    ∧ (∀ (text : List Char) (mc : Int),
      split_for_tts text "fixed" mc = split_for_tts text "fixed" (clampI mc)) := by
  constructor
  · intro text a b
    by_cases ht : stripChars text = [] <;> simp [split_for_tts, ht]
  · intro text mc
    by_cases ht : stripChars text = [] <;> simp [split_for_tts, ht, clampI_idem]

/-!
## Whitespace and strip lemmas for the chunker
-/

theorem headWs_dropWhile (l : List Char) : headWs (l.dropWhile isWs) = false := by
  induction l with
  | nil => rfl
  | cons c rest ih =>
    by_cases h : isWs c
    · simpa [List.dropWhile_cons, h] using ih
    · simp [List.dropWhile_cons, h, headWs]

theorem dropWhile_eq_strip_append (l : List Char) :
    ∃ t, l.dropWhile isWs = stripChars l ++ t := by
  refine ⟨((l.dropWhile isWs).reverse.takeWhile isWs).reverse, ?_⟩
  conv_lhs => rw [← List.reverse_reverse (l.dropWhile isWs),
    ← List.takeWhile_append_dropWhile (p := isWs) (l := (l.dropWhile isWs).reverse),
    List.reverse_append]
  rfl

theorem headWs_strip (l : List Char) : headWs (stripChars l) = false := by
  obtain ⟨t, htt⟩ := dropWhile_eq_strip_append l
  rcases hs : stripChars l with _ | ⟨c, s⟩
  · rfl
  · have hdw : headWs (l.dropWhile isWs) = false := headWs_dropWhile l
    rw [htt, hs] at hdw
    simpa [headWs] using hdw

theorem nonWs_append (a b : List Char) : nonWs (a ++ b) = nonWs a ++ nonWs b := by
  simp [nonWs, List.filter_append]

theorem nonWs_dropWhile_isWs (l : List Char) : nonWs (l.dropWhile isWs) = nonWs l := by
  induction l with
  | nil => rfl
  | cons c rest ih =>
    by_cases h : isWs c
    · rw [List.dropWhile_cons, if_pos h, ih]
      simp [nonWs, List.filter_cons, h]
    · simp [List.dropWhile_cons, h]

theorem nonWs_reverse (l : List Char) : nonWs l.reverse = (nonWs l).reverse := by
  simp [nonWs, List.filter_reverse]

theorem nonWs_strip (l : List Char) : nonWs (stripChars l) = nonWs l := by
  unfold stripChars
  rw [nonWs_reverse, nonWs_dropWhile_isWs, nonWs_reverse, List.reverse_reverse,
    nonWs_dropWhile_isWs]

theorem strip_ne_nil_of_nonWs (l : List Char) (h : nonWs l ≠ []) : stripChars l ≠ [] := by
  intro hs
  rw [← nonWs_strip l, hs] at h
  exact h rfl

theorem strip_cons_ne (c : Char) (rs : List Char) (h : isWs c = false) :
    stripChars (c :: rs) ≠ [] := by
  apply strip_ne_nil_of_nonWs
  simp [nonWs, List.filter_cons, h]

theorem cutAt_pos (maxcN : Nat) (hm : 1 ≤ maxcN) (remaining : List Char) :
    1 ≤ cutAt maxcN remaining := by
  unfold cutAt
  rcases rfindSpace (remaining.take maxcN) with _ | i
  · exact hm
  · dsimp only
    split_ifs <;> omega

/-- Every chunk the paragraph loop emits is non-empty, given non-empty
accumulated chunks and non-empty paragraphs. -/
theorem parLoop_ne : ∀ (raw chunks : List (List Char)),
    (∀ q ∈ chunks, q ≠ []) → (∀ q ∈ raw, q ≠ []) →
    ∀ c ∈ parLoop raw chunks, c ≠ []
  | [], chunks, hc, _ => by simpa [parLoop] using hc
  | p :: rest, chunks, hc, hr => by
    by_cases h15 : 15 ≤ chunks.length
    · simpa [parLoop, h15] using hc
    · rw [parLoop, if_neg h15]
      refine parLoop_ne rest _ ?_ (fun q hq => hr q (List.mem_cons_of_mem _ hq))
      intro q hq
      rcases List.mem_append.mp hq with h | h
      · exact hc q h
      · have hp := hr p (List.mem_cons_self _ _)
        rcases List.mem_singleton.mp h with rfl
        by_cases h5 : 5000 < p.length
        · simp only [if_pos h5]
          intro hq2
          rcases List.take_eq_nil_iff.mp hq2 with h0 | h0
          · exact absurd h0 (by norm_num)
          · exact hp h0
        · simpa [h5] using hp

/-- Every chunk the sentence loop emits is non-empty, given non-empty
accumulated chunks (the current buffer is only appended under a
non-emptiness guard). -/
theorem sentLoop_ne (maxc : Int) : ∀ (raw chunks : List (List Char)) (current : List Char),
    (∀ q ∈ chunks, q ≠ []) → ∀ c ∈ sentLoop maxc raw chunks current, c ≠ []
  | [], chunks, current, hc => by
    by_cases h : current ≠ [] ∧ chunks.length < 15
    · simp only [sentLoop, if_pos h]
      intro c hcm
      rcases List.mem_append.mp hcm with hm | hm
      · exact hc c hm
      · rcases List.mem_singleton.mp hm with rfl
        exact h.1
    · simpa [sentLoop, if_neg h] using hc
  | s0 :: rest, chunks, current, hc => by
    by_cases hs : stripChars s0 = []
    · rw [sentLoop, if_pos hs]
      exact sentLoop_ne maxc rest chunks current hc
    · rw [sentLoop, if_neg hs]
      by_cases hco : (current.length : Int) + (stripChars s0).length + 1 ≤ maxc ∧
          chunks.length < 15
      · rw [if_pos hco]
        exact sentLoop_ne maxc rest chunks _ hc
      · rw [if_neg hco]
        by_cases hcur : current ≠ []
        · rw [if_pos hcur]
          have hch : ∀ q ∈ chunks ++ [current], q ≠ [] := by
            intro q hq
            rcases List.mem_append.mp hq with hm | hm
            · exact hc q hm
            · rcases List.mem_singleton.mp hm with rfl
              exact hcur
          by_cases h15 : 15 ≤ chunks.length + 1
          · rw [if_pos h15]
            exact hch
          · rw [if_neg h15]
            exact sentLoop_ne maxc rest (chunks ++ [current]) _ hch
        · rw [if_neg hcur]
          exact sentLoop_ne maxc rest chunks _ hc

/-- Every chunk the fixed loop emits is non-empty, given non-empty
accumulated chunks, a positive window, and a remaining text that does not
start with whitespace. -/
theorem fixedLoopF_ne (maxcN : Nat) (hm : 1 ≤ maxcN) :
    ∀ (fuel : Nat) (chunks : List (List Char)) (remaining : List Char),
      (∀ q ∈ chunks, q ≠ []) → headWs remaining = false →
      ∀ c ∈ fixedLoopF maxcN fuel chunks remaining, c ≠ []
  | 0, chunks, remaining, hc, _ => by simpa [fixedLoopF] using hc
  | fuel + 1, chunks, [], hc, _ => by simpa [fixedLoopF] using hc
  | fuel + 1, chunks, c :: rs, hc, hh => by
    have hcw : isWs c = false := by simpa [headWs] using hh
    by_cases h15 : 15 ≤ chunks.length
    · simpa [fixedLoopF, h15] using hc
    · by_cases hlen : (c :: rs).length ≤ maxcN
      · rw [fixedLoopF, if_neg h15, if_pos hlen]
        intro q hq
        rcases List.mem_append.mp hq with hmm | hmm
        · exact hc q hmm
        · rcases List.mem_singleton.mp hmm with rfl
          exact strip_cons_ne c rs hcw
      · rw [fixedLoopF, if_neg h15, if_neg hlen]
        refine fixedLoopF_ne maxcN hm fuel _ _ ?_ (headWs_strip _)
        intro q hq
        rcases List.mem_append.mp hq with hmm | hmm
        · exact hc q hmm
        · rcases List.mem_singleton.mp hmm with rfl
          obtain ⟨k, hk⟩ : ∃ k, cutAt maxcN (c :: rs) = k + 1 :=
            ⟨cutAt maxcN (c :: rs) - 1, by have := cutAt_pos maxcN hm (c :: rs); omega⟩
          rw [hk, List.take_succ_cons]
          exact strip_cons_ne c _ hcw

/-- C6: for every input text, chunk mode, and `max_chars`, `split_for_tts`
returns at most `MAX_CHUNKS = 15` chunks and every returned chunk is a
non-empty string. -/
theorem c6_chunk_bounds (text : List Char) (mode : String) (mc : Int) :
    (split_for_tts text mode mc).length ≤ 15
    ∧ ∀ c ∈ split_for_tts text mode mc, c ≠ [] := by
  by_cases ht : stripChars text = []
  · constructor
    · simp [split_for_tts, ht]
    · intro c hcm
      simp [split_for_tts, ht] at hcm
  · have hws : headWs (if 5000 < (stripChars text).length then
        (stripChars text).take 5000 else stripChars text) = false := by
      rcases hsc : stripChars text with _ | ⟨c0, s0⟩
      · exact absurd hsc ht
      · have hc0 : isWs c0 = false := by
          have := headWs_strip text
          rw [hsc] at this
          simpa [headWs] using this
        have h5000 : (c0 :: s0).take 5000 = c0 :: s0.take 4999 := rfl
        split_ifs <;> simp [h5000, headWs, hc0]
    constructor
    · simp only [split_for_tts, if_neg ht]
      exact List.length_take_le 15 _
    · intro c hcm
      simp only [split_for_tts, if_neg ht] at hcm
      have hcm2 := List.take_subset 15 _ hcm
      by_cases hp : mode = "paragraph"
      · rw [if_pos hp] at hcm2
        refine parLoop_ne _ [] (by simp) ?_ c hcm2
        intro q hq
        rw [List.mem_filter] at hq
        intro h0
        rw [h0] at hq
        simp at hq
      · rw [if_neg hp] at hcm2
        by_cases hf : mode = "fixed"
        · rw [if_pos hf] at hcm2
          have hm : 1 ≤ (clampI mc).toNat := by
            have := clampI_ge mc
            omega
          exact fixedLoopF_ne (clampI mc).toNat hm _ [] _ (by simp) hws c hcm2
        · rw [if_neg hf] at hcm2
          exact sentLoop_ne mc _ [] [] (by simp) c hcm2

theorem c6_witness :
    (split_for_tts "A. B. C.".data "sentence" 100).length ≤ 15
    ∧ ∀ c ∈ split_for_tts "A. B. C.".data "sentence" 100, c ≠ [] :=
  c6_chunk_bounds "A. B. C.".data "sentence" 100

/-!
## Prefix machinery and order preservation of the chunker
-/

theorem prefixB_iff : ∀ a b : List Char, prefixB a b = true ↔ PrefixOf a b
  | [], b => ⟨fun _ => ⟨b, rfl⟩, fun _ => rfl⟩
  | a :: as, [] => by
    simp only [prefixB]
    constructor
    · intro h
      cases h
    · rintro ⟨t, h⟩
      cases h
  | a :: as, b :: bs => by
    simp only [prefixB, Bool.and_eq_true, beq_iff_eq, prefixB_iff as bs]
    constructor
    · rintro ⟨rfl, t, rfl⟩
      exact ⟨t, rfl⟩
    · rintro ⟨t, h⟩
      rw [List.cons_append] at h
      cases h
      exact ⟨rfl, t, rfl⟩

theorem prefixOf_refl (a : List Char) : PrefixOf a a := ⟨[], List.append_nil a⟩

theorem prefixOf_trans {a b c : List Char} (h1 : PrefixOf a b) (h2 : PrefixOf b c) :
    PrefixOf a c := by
  obtain ⟨t1, rfl⟩ := h1
  obtain ⟨t2, rfl⟩ := h2
  exact ⟨t1 ++ t2, (List.append_assoc a t1 t2).symm⟩

theorem prefixOf_append_right (a t : List Char) : PrefixOf a (a ++ t) := ⟨t, rfl⟩

theorem prefixOf_nonWs {a b : List Char} (h : PrefixOf a b) :
    PrefixOf (nonWs a) (nonWs b) := by
  obtain ⟨t, rfl⟩ := h
  exact ⟨nonWs t, (nonWs_append a t).symm⟩

theorem prefixOf_flatten_take (ls : List (List Char)) (k : Nat) :
    PrefixOf (List.flatten (ls.take k)) (List.flatten ls) :=
  ⟨(ls.drop k).flatten, by rw [← List.flatten_append, List.take_append_drop]⟩

theorem nonWs_nil : nonWs [] = [] := rfl

theorem nonWs_cons (c : Char) (l : List Char) :
    nonWs (c :: l) = if isWs c then nonWs l else c :: nonWs l := by
  simp only [nonWs, List.filter_cons]
  rcases h : isWs c <;> simp [h]

theorem consHead_flatten (c : Char) : ∀ l : List (List Char),
    List.flatten (consHead c l) = c :: List.flatten l
  | [] => by simp [consHead]
  | p :: ps => by simp [consHead]

theorem nonWs_flatten_splitNN : ∀ t : List Char, nonWs (List.flatten (splitNN t)) = nonWs t
  | [] => by simp [splitNN]
  | [c] => by simp [splitNN]
  | c :: d :: rest => by
    by_cases h : c == '\n' && d == '\n'
    · have hcd : c = '\n' ∧ d = '\n' := by
        simpa only [Bool.and_eq_true, beq_iff_eq] using h
      rw [splitNN, if_pos h, List.flatten_cons, List.nil_append,
        nonWs_flatten_splitNN rest, nonWs_cons, nonWs_cons, hcd.1, hcd.2]
      norm_num [isWs]
    · rw [splitNN, if_neg h, consHead_flatten, nonWs_cons,
        nonWs_flatten_splitNN (d :: rest)]
      conv_rhs => rw [nonWs_cons]

theorem nonWs_flatten_sentSplitF : ∀ (f : Nat) (t : List Char), t.length < f →
    nonWs (List.flatten (sentSplitF f t)) = nonWs t
  | 0, t, h => absurd h (by omega)
  | f + 1, [], _ => by simp [sentSplitF]
  | f + 1, c :: rest, h => by
    have hlt : rest.length < f := by
      simp only [List.length_cons] at h
      omega
    by_cases hp : isPunct c && headWs rest
    · have hdw : (rest.dropWhile isWs).length < f :=
        lt_of_le_of_lt (List.Sublist.length_le (List.dropWhile_sublist isWs)) hlt
      rw [sentSplitF, if_pos hp, List.flatten_cons, List.singleton_append,
        nonWs_cons, nonWs_flatten_sentSplitF f (rest.dropWhile isWs) hdw,
        nonWs_dropWhile_isWs, nonWs_cons]
    · rw [sentSplitF, if_neg hp, consHead_flatten, nonWs_cons,
        nonWs_flatten_sentSplitF f rest hlt, nonWs_cons]

/-- The sentence loop preserves left-to-right content: its output, modulo
whitespace, is a prefix of the accumulated chunks, the current buffer and the
remaining raw sentences (in that order), provided no stripped sentence
exceeds `max_chars` (so hard truncation never fires). -/
theorem sentLoop_pref (maxc : Int) : ∀ (raw chunks : List (List Char)) (current : List Char),
    (∀ s ∈ raw, ((stripChars s).length : Int) ≤ maxc) →
    PrefixOf (nonWs (List.flatten (sentLoop maxc raw chunks current)))
      (nonWs (List.flatten chunks) ++ nonWs current ++ nonWs (List.flatten raw))
  | [], chunks, current, _ => by
    by_cases h : current ≠ [] ∧ chunks.length < 15
    · rw [sentLoop, if_pos h]
      simp only [List.flatten_append, List.flatten_cons, List.flatten_nil,
        List.append_nil, nonWs_append, nonWs_nil]
      exact prefixOf_refl _
    · rw [sentLoop, if_neg h]
      simp only [List.flatten_nil, nonWs_nil, List.append_nil]
      exact prefixOf_append_right _ _
  | s0 :: rest, chunks, current, hlen => by
    have hrest : ∀ s ∈ rest, ((stripChars s).length : Int) ≤ maxc :=
      fun s hs => hlen s (List.mem_cons_of_mem _ hs)
    have hs0 : ((stripChars s0).length : Int) ≤ maxc := hlen s0 (List.mem_cons_self _ _)
    by_cases hemp : stripChars s0 = []
    · rw [sentLoop, if_pos hemp]
      have hns0 : nonWs s0 = [] := by
        rw [← nonWs_strip s0, hemp, nonWs_nil]
      have ih := sentLoop_pref maxc rest chunks current hrest
      simpa [List.flatten_cons, nonWs_append, hns0] using ih
    · rw [sentLoop, if_neg hemp]
      by_cases hco : ((current.length : Int) + (stripChars s0).length + 1 ≤ maxc ∧
          chunks.length < 15)
      · rw [if_pos hco]
        have hcur : nonWs (if current = [] then stripChars s0
            else stripChars (current ++ ' ' :: stripChars s0)) =
            nonWs current ++ nonWs s0 := by
          by_cases hc0 : current = []
          · rw [if_pos hc0, hc0, nonWs_strip, nonWs_nil, List.nil_append]
          · rw [if_neg hc0, nonWs_strip, nonWs_append, nonWs_cons, nonWs_strip]
            norm_num [isWs]
        have ih := sentLoop_pref maxc rest chunks
          (if current = [] then stripChars s0
            else stripChars (current ++ ' ' :: stripChars s0)) hrest
        rw [hcur] at ih
        simpa [List.flatten_cons, nonWs_append, List.append_assoc] using ih
      · rw [if_neg hco]
        have hnotrunc : ¬maxc < ((stripChars s0).length : Int) := not_lt.mpr hs0
        by_cases hc0 : current ≠ []
        · rw [if_pos hc0]
          by_cases h15 : 15 ≤ chunks.length + 1
          · rw [if_pos h15]
            simp only [List.flatten_append, List.flatten_cons, List.flatten_nil,
              List.append_nil, nonWs_append, List.append_assoc]
            exact ⟨nonWs s0 ++ nonWs rest.flatten, by simp [List.append_assoc]⟩
          · rw [if_neg h15, if_neg hnotrunc]
            have ih := sentLoop_pref maxc rest (chunks ++ [current]) (stripChars s0) hrest
            simpa [List.flatten_cons, List.flatten_append, nonWs_append, nonWs_strip,
              List.append_assoc] using ih
        · rw [if_neg hc0, if_neg hnotrunc]
          push_neg at hc0
          have ih := sentLoop_pref maxc rest chunks (stripChars s0) hrest
          simpa [List.flatten_cons, nonWs_append, nonWs_strip, hc0, nonWs_nil,
            List.append_assoc] using ih

/-- The fixed-mode loop preserves left-to-right content modulo
whitespace. -/
theorem fixedLoopF_pref (maxcN : Nat) : ∀ (fuel : Nat) (chunks : List (List Char))
    (remaining : List Char),
    PrefixOf (nonWs (List.flatten (fixedLoopF maxcN fuel chunks remaining)))
      (nonWs (List.flatten chunks) ++ nonWs remaining)
  | 0, chunks, remaining => by
    rw [fixedLoopF]
    exact prefixOf_append_right _ _
  | fuel + 1, chunks, [] => by
    rw [fixedLoopF]
    exact prefixOf_append_right _ _
  | fuel + 1, chunks, c :: rs => by
    by_cases h15 : 15 ≤ chunks.length
    · rw [fixedLoopF, if_pos h15]
      exact prefixOf_append_right _ _
    · by_cases hlen : (c :: rs).length ≤ maxcN
      · rw [fixedLoopF, if_neg h15, if_pos hlen]
        simp only [List.flatten_append, List.flatten_cons, List.flatten_nil,
          List.append_nil, nonWs_append, nonWs_strip]
        exact prefixOf_refl _
      · rw [fixedLoopF, if_neg h15, if_neg hlen]
        have ih := fixedLoopF_pref maxcN fuel
          (chunks ++ [stripChars ((c :: rs).take (cutAt maxcN (c :: rs)))])
          (stripChars ((c :: rs).drop (cutAt maxcN (c :: rs))))
        refine prefixOf_trans ih ?_
        have hsplit : nonWs ((c :: rs).take (cutAt maxcN (c :: rs))) ++
            nonWs ((c :: rs).drop (cutAt maxcN (c :: rs))) = nonWs (c :: rs) := by
          rw [← nonWs_append, List.take_append_drop]
        rw [← hsplit]
        simp only [List.flatten_append, List.flatten_cons, List.flatten_nil,
          List.append_nil, nonWs_append, nonWs_strip, List.append_assoc]
        exact prefixOf_refl _

/-- The paragraph loop preserves left-to-right content modulo whitespace,
provided no paragraph exceeds `MAX_TOTAL_CHARS` (which holds because the
whole text was already truncated to that length). -/
theorem parLoop_pref : ∀ (raw chunks : List (List Char)),
    (∀ p ∈ raw, p.length ≤ 5000) →
    PrefixOf (nonWs (List.flatten (parLoop raw chunks)))
      (nonWs (List.flatten chunks) ++ nonWs (List.flatten raw))
  | [], chunks, _ => by
    rw [parLoop]
    simp only [List.flatten_nil, nonWs_nil, List.append_nil]
    exact prefixOf_refl _
  | p :: rest, chunks, hlen => by
    have hrest : ∀ q ∈ rest, q.length ≤ 5000 :=
      fun q hq => hlen q (List.mem_cons_of_mem _ hq)
    have hp : ¬5000 < p.length := not_lt.mpr (hlen p (List.mem_cons_self _ _))
    by_cases h15 : 15 ≤ chunks.length
    · rw [parLoop, if_pos h15]
      exact prefixOf_append_right _ _
    · rw [parLoop, if_neg h15, if_neg hp]
      have ih := parLoop_pref rest (chunks ++ [p]) hrest
      simpa [List.flatten_cons, List.flatten_append, nonWs_append, List.append_assoc] using ih



theorem strip_length_le (l : List Char) : (stripChars l).length ≤ l.length := by
  unfold stripChars
  calc ((l.dropWhile isWs).reverse.dropWhile isWs).reverse.length
      = ((l.dropWhile isWs).reverse.dropWhile isWs).length := List.length_reverse _
    _ ≤ (l.dropWhile isWs).reverse.length :=
        List.Sublist.length_le (List.dropWhile_sublist isWs)
    _ = (l.dropWhile isWs).length := List.length_reverse _
    _ ≤ l.length := List.Sublist.length_le (List.dropWhile_sublist isWs)

theorem splitNN_ne_nil : ∀ t : List Char, splitNN t ≠ []
  | [] => by simp [splitNN]
  | [c] => by simp [splitNN]
  | c :: d :: rest => by
    by_cases h : c == '\n' && d == '\n'
    · simp [splitNN, h]
    · rw [splitNN, if_neg h]
      rcases hs : splitNN (d :: rest) with _ | ⟨q, qs⟩ <;> simp [consHead]

theorem splitNN_piece_len : ∀ t : List Char, ∀ p ∈ splitNN t, p.length ≤ t.length
  | [], p, hp => by
    simp only [splitNN, List.mem_singleton] at hp
    simp [hp]
  | [c], p, hp => by
    simp only [splitNN, List.mem_singleton] at hp
    simp [hp]
  | c :: d :: rest, p, hp => by
    by_cases h : c == '\n' && d == '\n'
    · rw [splitNN, if_pos h] at hp
      rcases List.mem_cons.mp hp with rfl | hmem
      · simp
      · have := splitNN_piece_len rest p hmem
        simp only [List.length_cons]
        omega
    · rw [splitNN, if_neg h] at hp
      rcases hs : splitNN (d :: rest) with _ | ⟨q, qs⟩
      · exact absurd hs (splitNN_ne_nil _)
      · rw [hs] at hp
        simp only [consHead] at hp
        rcases List.mem_cons.mp hp with rfl | hmem
        · have hq : q ∈ splitNN (d :: rest) := by
            rw [hs]
            exact List.mem_cons_self _ _
          have := splitNN_piece_len (d :: rest) q hq
          simp only [List.length_cons] at this ⊢
          omega
        · have hq : p ∈ splitNN (d :: rest) := by
            rw [hs]
            exact List.mem_cons_of_mem _ hmem
          have := splitNN_piece_len (d :: rest) p hq
          simp only [List.length_cons] at this ⊢
          omega

theorem nonWs_flatten_stripFilter : ∀ L : List (List Char),
    nonWs (List.flatten ((L.map stripChars).filter (fun p => !p.isEmpty))) =
      nonWs (List.flatten L)
  | [] => rfl
  | p :: L => by
    by_cases h : stripChars p = []
    · have hemp : (stripChars p).isEmpty = true := by simp [h]
      have hnp : nonWs p = [] := by rw [← nonWs_strip, h, nonWs_nil]
      simp [List.map_cons, List.filter_cons, hemp, List.flatten_cons,
        nonWs_append, hnp, nonWs_flatten_stripFilter L]
    · have hemp : (stripChars p).isEmpty = false := by simp [h]
      simp [List.map_cons, List.filter_cons, hemp, List.flatten_cons,
        nonWs_append, nonWs_strip, nonWs_flatten_stripFilter L]

theorem prepText_len (text : List Char) : (prepText text).length ≤ 5000 := by
  simp only [prepText]
  by_cases h5 : 5000 < (stripChars text).length
  · simp only [if_pos h5, List.length_take]
    omega
  · simp only [if_neg h5]
    omega

/-- C4 counterexample: in sentence mode with `max_chars = 5`, the first
sentence `abcdefg.` is hard-truncated to `abcde` and the second sentence
`hi.` is still emitted, so the concatenated chunks modulo whitespace are not
a prefix of the original text. -/
theorem c4_counterexample :
    ¬PrefixOf (nonWs (List.flatten (split_for_tts "abcdefg. hi.".data "sentence" 5)))
      (nonWs "abcdefg. hi.".data) := by
  intro h
  exact absurd ((prefixB_iff _ _).mpr h) (by decide)

/-- C4 amended: in paragraph and fixed modes unconditionally, and in
sentence mode provided no stripped sentence exceeds `max_chars` (otherwise
hard truncation drops interior content while later chunks are still
emitted), concatenating the chunks of `split_for_tts` in order reproduces,
modulo whitespace, a prefix of the original text. -/
theorem c4_amended (text : List Char) (mode : String) (mc : Int)
    (h : mode = "paragraph" ∨ mode = "fixed" ∨
      (∀ s ∈ sentenceSplit (prepText text), ((stripChars s).length : Int) ≤ mc)) :
    PrefixOf (nonWs (List.flatten (split_for_tts text mode mc))) (nonWs text) := by
  by_cases ht : stripChars text = []
  · have hz : split_for_tts text mode mc = [] := by simp [split_for_tts, ht]
    rw [hz]
    exact ⟨nonWs text, rfl⟩
  · have hpre0 : PrefixOf (prepText text) (stripChars text) := by
      simp only [prepText]
      by_cases h5 : 5000 < (stripChars text).length
      · rw [if_pos h5]
        exact ⟨(stripChars text).drop 5000, List.take_append_drop _ _⟩
      · rw [if_neg h5]
        exact prefixOf_refl _
    have hpre : PrefixOf (nonWs (prepText text)) (nonWs text) := by
      have := prefixOf_nonWs hpre0
      rwa [nonWs_strip] at this
    simp only [split_for_tts, if_neg ht]
    refine prefixOf_trans (prefixOf_nonWs (prefixOf_flatten_take _ 15)) ?_
    by_cases hp : mode = "paragraph"
    · rw [if_pos hp]
      have hplen : ∀ q ∈ ((splitNN (prepText text)).map stripChars).filter
          (fun p => !p.isEmpty), q.length ≤ 5000 := by
        intro q hq
        rw [List.mem_filter] at hq
        rcases List.mem_map.mp hq.1 with ⟨p, hpm, rfl⟩
        calc (stripChars p).length ≤ p.length := strip_length_le p
          _ ≤ (prepText text).length := splitNN_piece_len _ p hpm
          _ ≤ 5000 := prepText_len text
      have h1 := parLoop_pref (((splitNN (prepText text)).map stripChars).filter
        (fun p => !p.isEmpty)) [] hplen
      rw [nonWs_flatten_stripFilter, nonWs_flatten_splitNN] at h1
      simp only [List.flatten_nil, nonWs_nil, List.nil_append] at h1
      exact prefixOf_trans h1 hpre
    · rw [if_neg hp]
      by_cases hf : mode = "fixed"
      · rw [if_pos hf]
        have h1 := fixedLoopF_pref (clampI mc).toNat ((prepText text).length + 1) []
          (prepText text)
        simp only [List.flatten_nil, nonWs_nil, List.nil_append] at h1
        exact prefixOf_trans h1 hpre
      · rw [if_neg hf]
        have hsent := (h.resolve_left hp).resolve_left hf
        have h1 := sentLoop_pref mc (sentenceSplit (prepText text)) [] [] hsent
        rw [sentenceSplit, nonWs_flatten_sentSplitF ((prepText text).length + 1)
          (prepText text) (by omega)] at h1
        simp only [List.flatten_nil, nonWs_nil, List.nil_append] at h1
        exact prefixOf_trans h1 hpre

theorem c4_witness :
    PrefixOf (nonWs (List.flatten (split_for_tts "ab. cd.".data "sentence" 100)))
      (nonWs "ab. cd.".data) :=
  c4_amended "ab. cd.".data "sentence" 100 (Or.inr (Or.inr (by decide)))
